import Mathlib

/-
Formal model of the deterministic bank-statement parser
(src/parsers/deterministic_parser.py, class DeterministicBankStatementParser).

Modelling conventions:
- Python strings are modelled as lists of characters (`Str`), with structural
  helpers mirroring `" ".join`, `.upper()`, `.strip()`, the `in` substring
  test and `str(n)`.
- PDF coordinates (Python floats) are modelled as rationals.  The only float
  operations the source performs on coordinates are strict/loose order
  comparisons and the proximity test `abs(a - b) < 3`; these are modelled by
  the executable cross-multiplied integer comparisons `qltB`, `qleB`, `nearB`,
  proved equivalent to the rational-order statements in `qltB_iff`, `qleB_iff`
  and `nearB_iff`.
- Monetary amounts always have the shape `[digits,]+.\d\d` (two decimal
  digits), so their float values are modelled exactly by their value in cents
  (a natural number).  The source's comparisons on amounts (`> 1000` and
  Python truthiness, i.e. `!= 0.0`) correspond to `1000 * 100 < cents` and
  `cents != 0`.
- `sorted(...)` (a stable sort by a key) is modelled by a stable insertion
  sort `sortBy`; a stable sort by a fixed key is extensionally unique.
- Python dicts preserve insertion order, so the `lines_dict` of
  `_group_words_into_lines` is modelled as an association list to which new
  keys are appended at the end (`addWord`).
-/

namespace StatementParser

-- ------------------------------------------------------------------
-- Numeric primitives for float comparisons
-- ------------------------------------------------------------------

/-- Executable strict order on rationals by cross multiplication
(`a < b` on the floats of the source). -/
def qltB (a b : ℚ) : Bool := decide (a.num * (b.den : ℤ) < b.num * (a.den : ℤ))

/-- Executable loose order on rationals by cross multiplication
(`a <= b` on the floats of the source, used by the stable sorts). -/
def qleB (a b : ℚ) : Bool := decide (a.num * (b.den : ℤ) ≤ b.num * (a.den : ℤ))

/-- Cross-multiplied numerator of `a - b`. -/
def subNum (a b : ℚ) : ℤ := a.num * (b.den : ℤ) - b.num * (a.den : ℤ)

/-- Executable form of the proximity test `abs(existing_y - y0) < 3` of
`_group_words_into_lines`. -/
def nearB (a b : ℚ) : Bool :=
  decide (subNum a b < 3 * ((a.den : ℤ) * (b.den : ℤ))) &&
  decide (subNum b a < 3 * ((b.den : ℤ) * (a.den : ℤ)))

-- ------------------------------------------------------------------
-- Text primitives
-- ------------------------------------------------------------------

/-- Python strings, modelled as character lists. -/
abbrev Str := List Char

/-- Python `.upper()` (character-wise upper-casing). -/
def upperL (s : Str) : Str := s.map Char.toUpper

/-- Python `.strip()`: drop whitespace from both ends. -/
def trimL (s : Str) : Str :=
  ((s.dropWhile Char.isWhitespace).reverse.dropWhile Char.isWhitespace).reverse

/-- Python `" ".join(xs)`. -/
def joinSpace : List Str → Str
  | [] => []
  | [x] => x
  | x :: xs => x ++ ' ' :: joinSpace xs

/-- Does `s` start with `t`? -/
def startsWithL : Str → Str → Bool
  | _, [] => true
  | [], _ :: _ => false
  | a :: s, b :: t => a == b && startsWithL s t

/-- Python substring test `t in s`. -/
def containsL : Str → Str → Bool
  | [], t => t.isEmpty
  | a :: s, t => startsWithL (a :: s) t || containsL s t

/-- Decimal digits of a digit string, as a natural number
(the integer part of `float(...)` after commas are removed). -/
def digitsVal (cs : Str) : Nat := cs.foldl (fun acc c => acc * 10 + (c.toNat - 48)) 0

/-- Decimal representation of a natural number (Python `str(n)` inside the
f-strings that build warnings), fuel-based so that it is structural. -/
def natStrAux : Nat → Nat → Str
  | 0, _ => []
  | fuel + 1, n =>
    if n < 10 then [Char.ofNat (48 + n)]
    else natStrAux fuel (n / 10) ++ [Char.ofNat (48 + n % 10)]

/-- Decimal representation of a natural number. -/
def natStr (n : Nat) : Str := natStrAux (n + 1) n

-- ------------------------------------------------------------------
-- Data model
-- ------------------------------------------------------------------

/-- One word tuple `(x0, y0, x1, y1, "word")` from `page.get_text("words")`. -/
structure Word where
  x0 : ℚ
  y0 : ℚ
  x1 : ℚ
  y1 : ℚ
  text : Str
deriving DecidableEq

/-- A grouped line: the dict `{"y": y_pos, "words": words_in_line}` built by
`_group_words_into_lines`. -/
structure Line where
  y : ℚ
  words : List Word
deriving DecidableEq

/-- A transaction dict as built by `_parse_transaction_from_words` (the
`page` key is attached by `_parse_table_rows_from_lines`; before that it is
0 here, mirroring the key being absent). -/
structure Txn where
  date : Str
  description : Str
  withdrawal : Option Nat
  deposit : Option Nat
  balance : Option Nat
  page : Nat
deriving DecidableEq

/-- One page of the input document: its word tuples
(`page.get_text("words")`) and its plain text (`page.get_text()`). -/
structure Page where
  words : List Word
  text : Str
deriving DecidableEq

/-- The mutable parser-instance state set up in `__init__`:
`self.warnings` and `self.confidence`. -/
structure PState where
  warnings : List Str
  confidence : ℚ
deriving DecidableEq

/-- The state of a freshly constructed parser (`__init__`). -/
def initState : PState := ⟨[], 1⟩

/-- The dataclass `ParserResult`. -/
structure ParserResult where
  success : Bool
  data : List Txn
  confidence : ℚ
  warnings : List Str
  abortReason : Option Str
deriving DecidableEq

-- ------------------------------------------------------------------
-- Amount parsing (`_try_parse_amount` composed with `_parse_amount`)
-- ------------------------------------------------------------------

/-- `_try_parse_amount`: strip every character that is not a digit, comma or
period, require the shape `^[\d,]+\.\d{2}$` (the string up to the first
period is nonempty and period-free, then a period and exactly two digits),
then parse with commas removed.  The resulting float `d+.d\d` is returned as
its exact value in cents. -/
def tryParseAmount (s : Str) : Option Nat :=
  let cs := s.filter (fun c => c.isDigit || c == ',' || c == '.')
  let intPart := cs.takeWhile (fun c => !(c == '.'))
  match cs.dropWhile (fun c => !(c == '.')) with
  | '.' :: d1 :: d2 :: [] =>
    if !intPart.isEmpty && d1.isDigit && d2.isDigit then
      some (digitsVal (intPart.filter Char.isDigit) * 100 + (d1.toNat - 48) * 10 + (d2.toNat - 48))
    else none
  | _ => none

-- ------------------------------------------------------------------
-- Line grouping (`_group_words_into_lines`)
-- ------------------------------------------------------------------

/-- Assign one word to the line dict: scan the existing keys in insertion
order and append to the first whose y differs from the word's y0 by less
than 3; otherwise open a new key at the end (dicts preserve insertion
order). -/
def addWord : List (ℚ × List Word) → Word → List (ℚ × List Word)
  | [], w => [(w.y0, [w])]
  | (k, ws) :: rest, w =>
    if nearB k w.y0 = true then (k, ws ++ [w]) :: rest
    else (k, ws) :: addWord rest w

/-- Stable insertion of `a` into `l`: `a` goes after every element that
compares `le` to it. -/
def insBy (le : α → α → Bool) (a : α) : List α → List α
  | [] => [a]
  | b :: l => if le b a then b :: insBy le a l else a :: b :: l

/-- Stable insertion sort, the extensional behaviour of Python `sorted`
with a key. -/
def sortBy (le : α → α → Bool) (l : List α) : List α :=
  l.foldl (fun acc a => insBy le a acc) []

/-- `_group_words_into_lines`: cluster words into lines by y-proximity, sort
the lines by their key and each line's words by x0. -/
def groupWordsIntoLines (words : List Word) : List Line :=
  let entries := words.foldl addWord []
  (sortBy (fun a b => qleB a.1 b.1) entries).map
    (fun kv => ⟨kv.1, sortBy (fun u v => qleB u.x0 v.x0) kv.2⟩)

-- ------------------------------------------------------------------
-- Table location (`_find_table_start_from_lines`)
-- ------------------------------------------------------------------

/-- Does the (stripped) text start with the date pattern `\d{2}/\d{2}/\d{4}`
(a prefix match, `re.match`)? -/
def isDateStart (s : Str) : Bool :=
  match s with
  | a :: b :: '/' :: c :: d :: '/' :: e :: f :: g :: h :: _ =>
    a.isDigit && b.isDigit && c.isDigit && d.isDigit &&
    e.isDigit && f.isDigit && g.isDigit && h.isDigit
  | _ => false

/-- Does the text match `^\d{2}/\d{2}/\d{4}$` exactly? -/
def isFullDate (s : Str) : Bool :=
  match s with
  | [a, b, '/', c, d, '/', e, f, g, h] =>
    a.isDigit && b.isDigit && c.isDigit && d.isDigit &&
    e.isDigit && f.isDigit && g.isDigit && h.isDigit
  | _ => false

/-- Joined text of a line (`" ".join(w["text"] for w in line["words"])`). -/
def lineText (l : Line) : Str := joinSpace (l.words.map Word.text)

/-- `_find_table_start_from_lines` body: a line containing `CURRENCY:`
(upper-cased) starts the table at the next index; a line whose stripped text
starts with a date starts it at this index. -/
def findTableStartAux : List Line → Nat → Option Nat
  | [], _ => none
  | l :: rest, i =>
    if containsL (upperL (lineText l)) (("CURRENCY:").data) = true then some (i + 1)
    else if isDateStart (trimL (lineText l)) = true then some i
    else findTableStartAux rest (i + 1)

/-- `_find_table_start_from_lines`. -/
def findTableStart (ls : List Line) : Option Nat := findTableStartAux ls 0

-- ------------------------------------------------------------------
-- Row parsing (`_parse_transaction_from_words`)
-- ------------------------------------------------------------------

/-- The local accumulator of `_parse_transaction_from_words`:
`description_parts`, `withdrawal`, `deposit`, `balance`. -/
structure RowState where
  descParts : List Str
  withdrawal : Option Nat
  deposit : Option Nat
  balance : Option Nat
deriving DecidableEq

/-- Per-token classification of `_parse_transaction_from_words`: an
amount-shaped token is assigned by x0 (`> 503` balance, `> 440` deposit,
`> 364` withdrawal, otherwise description text); a non-amount token is
description text. -/
def rowStep (s : RowState) (w : Word) : RowState :=
  match tryParseAmount w.text with
  | some a =>
    if qltB 503 w.x0 = true then { s with balance := some a }
    else if qltB 440 w.x0 = true then { s with deposit := some a }
    else if qltB 364 w.x0 = true then { s with withdrawal := some a }
    else { s with descParts := s.descParts ++ [w.text] }
  | none => { s with descParts := s.descParts ++ [w.text] }

/-- Python truthiness of an optional amount (`None` and `0.0` are falsy). -/
def truthyC : Option Nat → Bool
  | none => false
  | some c => !(c == 0)

/-- First correction of `_parse_transaction_from_words`:
`if withdrawal and not balance and withdrawal > 1000`, move the withdrawal
to the balance. -/
def corrW (s : RowState) : RowState :=
  match s.withdrawal with
  | some c =>
    if !(c == 0) && !(truthyC s.balance) && decide (1000 * 100 < c) then
      { s with balance := some c, withdrawal := none }
    else s
  | none => s

/-- Second correction of `_parse_transaction_from_words`:
`if deposit and not balance and deposit > 1000`, move the deposit to the
balance. -/
def corrD (s : RowState) : RowState :=
  match s.deposit with
  | some c =>
    if !(c == 0) && !(truthyC s.balance) && decide (1000 * 100 < c) then
      { s with balance := some c, deposit := none }
    else s
  | none => s

/-- The per-token classification pass of `_parse_transaction_from_words`
over the words after the date token. -/
def rowAmounts (ws : List Word) : RowState := ws.foldl rowStep ⟨[], none, none, none⟩

/-- `_parse_transaction_from_words`: `None` unless the first word matches
`^\d{2}/\d{2}/\d{4}$`; otherwise classify the remaining words, join and
strip the description, and apply the two corrections. -/
def parseTransactionFromWords : List Word → Option Txn
  | [] => none
  | w0 :: rest =>
    if isFullDate w0.text = true then
      let s := corrD (corrW (rowAmounts rest))
      some ⟨w0.text, trimL (joinSpace s.descParts), s.withdrawal, s.deposit, s.balance, 0⟩
    else none

-- ------------------------------------------------------------------
-- Continuation lines (`_parse_table_rows_from_lines`, middle part)
-- ------------------------------------------------------------------

/-- Continuation classification: an amount at x0 fills the corresponding
slot only when that slot is falsy (`if not current_transaction[...]`). -/
def contFill (c : Txn) (x : ℚ) (a : Nat) : Txn :=
  if qltB 503 x = true then (if truthyC c.balance then c else { c with balance := some a })
  else if qltB 440 x = true then (if truthyC c.deposit then c else { c with deposit := some a })
  else if qltB 364 x = true then (if truthyC c.withdrawal then c else { c with withdrawal := some a })
  else c

/-- One word of a continuation line: the pair carries the open record and
the `has_amount` flag. -/
def contStep (p : Txn × Bool) (w : Word) : Txn × Bool :=
  match tryParseAmount w.text with
  | some a => (contFill p.1 w.x0 a, true)
  | none => p

/-- Processing of one continuation line: scan the words for amounts; when
none was found, append the joined line text to the description. -/
def applyContinuation (c : Txn) (ws : List Word) : Txn :=
  let p := ws.foldl contStep (c, false)
  if p.2 then p.1
  else { p.1 with description := p.1.description ++ ' ' :: joinSpace (ws.map Word.text) }

-- ------------------------------------------------------------------
-- Row loop (`_parse_table_rows_from_lines`)
-- ------------------------------------------------------------------

/-- The end-of-table markers tested on each line's joined text. -/
def endMarkers : List Str :=
  [("Balance Carried Forward").data,
   ("Total Balance Carried Forward").data,
   ("Messages For").data,
   ("Transaction Details as of").data,
   ("Page").data]

/-- `any(marker in line_text for marker in [...])`. -/
def isEndMarker (t : Str) : Bool := endMarkers.any (fun m => containsL t m)

/-- `_parse_table_rows_from_lines`: the row loop with its accumulator
`transactions` and the open record `current_transaction`. -/
def parseTableRows : Nat → List Txn → Option Txn → List Line → List Txn
  | _, acc, cur, [] => acc ++ cur.toList
  | pageNum, acc, cur, l :: rest =>
    if isEndMarker (lineText l) = true then acc ++ cur.toList
    else
      match parseTransactionFromWords l.words with
      | some t => parseTableRows pageNum (acc ++ cur.toList) (some { t with page := pageNum + 1 }) rest
      | none =>
        match cur with
        | some c =>
          if l.words.isEmpty then parseTableRows pageNum acc cur rest
          else parseTableRows pageNum acc (some (applyContinuation c l.words)) rest
        | none => parseTableRows pageNum acc none rest

-- ------------------------------------------------------------------
-- Page extraction, validation, whole-document parse
-- ------------------------------------------------------------------

/-- Warning `"No text found on page {n}"`. -/
def wNoText (n : Nat) : Str := ("No text found on page ").data ++ natStr n

/-- Warning `"Could not find transaction table on page {n}"`. -/
def wNoTable (n : Nat) : Str := ("Could not find transaction table on page ").data ++ natStr n

/-- Warning `"Empty document"`. -/
def wEmptyDoc : Str := ("Empty document").data

/-- Warning `"Insufficient text content - possible OCR needed"`. -/
def wInsufficient : Str := ("Insufficient text content - possible OCR needed").data

/-- Warning `"Expected headers not found"`. -/
def wNoHeaders : Str := ("Expected headers not found").data

/-- Abort reason `"Document integrity check failed"`. -/
def rIntegrity : Str := ("Document integrity check failed").data

/-- Abort reason `"Failed to extract transactions from page {n}"`. -/
def rPageFail (n : Nat) : Str := ("Failed to extract transactions from page ").data ++ natStr n

/-- Abort reason `"Unexpected error: {e}"`. -/
def rUnexpected (e : Str) : Str := ("Unexpected error: ").data ++ e

/-- `len(text.strip()) < 50`. -/
def thinText (t : Str) : Bool := decide ((trimL t).length < 50)

/-- `"Transaction Details" not in text and "Account Summary" not in text`. -/
def missingHeaders (t : Str) : Bool :=
  !(containsL t (("Transaction Details").data)) && !(containsL t (("Account Summary").data))

/-- `_validate_document`: `False` (with a warning) on an empty document;
otherwise apply the two multiplicative confidence penalties (0.5 for a thin
text layer, 0.7 for missing headers) and return `True`. -/
def validateDocument (st : PState) (doc : List Page) : Bool × PState :=
  match doc with
  | [] => (false, ⟨st.warnings ++ [wEmptyDoc], st.confidence⟩)
  | p :: _ =>
    let st1 := if thinText p.text = true then
        (⟨st.warnings ++ [wInsufficient], st.confidence * (1/2 : ℚ)⟩ : PState)
      else st
    let st2 := if missingHeaders p.text = true then
        (⟨st1.warnings ++ [wNoHeaders], st1.confidence * (7/10 : ℚ)⟩ : PState)
      else st1
    (true, st2)

/-- `_extract_page_transactions` (its declared type is `Optional[List[Dict]]`,
but every return in its body is a list, never `None`): a wordless page and a
page without a located table start yield an empty list plus a warning. -/
def extractPage (st : PState) (pageNum : Nat) (p : Page) : Option (List Txn) × PState :=
  if p.words.isEmpty then
    (some [], ⟨st.warnings ++ [wNoText (pageNum + 1)], st.confidence⟩)
  else
    let lines := groupWordsIntoLines p.words
    match findTableStart lines with
    | none => (some [], ⟨st.warnings ++ [wNoTable (pageNum + 1)], st.confidence⟩)
    | some idx => (some (parseTableRows pageNum [] none (lines.drop idx)), st)

/-- The per-page loop of `parse`: extract each page in order, aborting with
`"Failed to extract transactions from page {n}"` if an extraction returned
`None` (which `extractPage` never does), and concatenating the results. -/
def processPages : PState → Nat → List Page → Except Str (List Txn) × PState
  | st, _, [] => (Except.ok [], st)
  | st, pn, p :: rest =>
    match extractPage st pn p with
    | (none, st') => (Except.error (rPageFail (pn + 1)), st')
    | (some ts, st') =>
      match processPages st' (pn + 1) rest with
      | (Except.error e, st'') => (Except.error e, st'')
      | (Except.ok more, st'') => (Except.ok (ts ++ more), st'')

/-- `_remove_balance_forward_entries`: drop every record whose description
contains `"Balance Brought Forward"` or `"Balance Carried Forward"`. -/
def removeBalanceForward (ts : List Txn) : List Txn :=
  ts.filter (fun t =>
    !(containsL t.description (("Balance Brought Forward").data)) &&
    !(containsL t.description (("Balance Carried Forward").data)))

/-- The body of `parse` after the document was opened successfully:
validator gate, per-page loop, post-processing, result construction.
Returns the result together with the final instance state. -/
def parseCore (st : PState) (doc : List Page) : ParserResult × PState :=
  match validateDocument st doc with
  | (false, st') => (⟨false, [], 0, st'.warnings, some rIntegrity⟩, st')
  | (true, st') =>
    match processPages st' 0 doc with
    | (Except.error e, st'') => (⟨false, [], 0, st''.warnings, some e⟩, st'')
    | (Except.ok ts, st'') =>
      (⟨true, removeBalanceForward ts, st''.confidence, st''.warnings, none⟩, st'')

/-- `parse` with its outermost `try/except`: `exc = some e` models an
exception raised while opening the document (e.g. an unreadable path),
caught by the handler that returns an aborted result carrying
`self.warnings + [str(e)]` (a fresh list; the instance state is not
mutated by the handler). -/
def parseS (st : PState) (exc : Option Str) (doc : List Page) : ParserResult × PState :=
  match exc with
  | some e => (⟨false, [], 0, st.warnings ++ [e], some (rUnexpected e)⟩, st)
  | none => parseCore st doc

/-- Text of the first page (empty for an empty document); `_validate_document`
reads only this. -/
def firstText : List Page → Str
  | [] => []
  | p :: _ => p.text

/-- The product of the validator's penalty factors for a first-page text. -/
def penaltyOf (t : Str) : ℚ :=
  (if thinText t = true then (1/2 : ℚ) else 1) * (if missingHeaders t = true then (7/10 : ℚ) else 1)

-- ------------------------------------------------------------------
-- Notions used by the LineGrouper claims
-- ------------------------------------------------------------------

/-- Transitivity of the y-proximity relation on the tokens of a list;
under this hypothesis proximity is an equivalence on the list's tokens. -/
def NearTrans (l : List Word) : Prop :=
  ∀ a ∈ l, ∀ b ∈ l, ∀ c ∈ l,
    nearB a.y0 b.y0 = true → nearB b.y0 c.y0 = true → nearB a.y0 c.y0 = true

instance (l : List Word) : Decidable (NearTrans l) := by
  unfold NearTrans; infer_instance

/-- The groups built by the clustering fold of `_group_words_into_lines`,
in dict insertion order. -/
def partsOf (l : List Word) : List (List Word) := (l.foldl addWord []).map Prod.snd

/-- A word list, viewed as a multiset. -/
def msOf (ws : List Word) : Multiset Word := (ws : Multiset Word)

/-- The lines produced by LineGrouper, with each line reduced to its multiset
of word tokens and the line order forgotten: "the set of Lines with their
token membership". -/
def lineWordsMS (l : List Word) : Multiset (Multiset Word) :=
  (((groupWordsIntoLines l).map (fun ln => msOf ln.words)) : List (Multiset Word))

-- ------------------------------------------------------------------
-- Concrete sample data (words, lines, pages, records) used in examples
-- ------------------------------------------------------------------

/-- The empty row accumulator. -/
def sRow : RowState := ⟨[], none, none, none⟩

/-- An amount token in the balance x-range. -/
def wAmtB : Word := ⟨520, 0, 530, 10, ("79.80").data⟩

/-- An amount token in the deposit x-range. -/
def wAmtD : Word := ⟨480, 0, 490, 10, ("79.80").data⟩

/-- An amount token in the withdrawal x-range. -/
def wAmtW : Word := ⟨400, 0, 410, 10, ("79.80").data⟩

/-- An amount token in the description x-range. -/
def wAmtDesc : Word := ⟨300, 0, 310, 10, ("79.80").data⟩

/-- An amount token with x0 exactly at the balance threshold. -/
def wAmt503 : Word := ⟨503, 0, 513, 10, ("79.80").data⟩

/-- A date token. -/
def wDate : Word := ⟨50, 0, 60, 10, ("01/01/2022").data⟩

/-- A large amount (1,500.00) in the withdrawal x-range. -/
def wAmt1500 : Word := ⟨400, 0, 410, 10, ("1,500.00").data⟩

/-- A zero amount (0.00) in the balance x-range. -/
def wZero : Word := ⟨520, 0, 530, 10, ("0.00").data⟩

/-- An amount (5.00) in the balance x-range on a lower line. -/
def wFive : Word := ⟨520, 12, 530, 22, ("5.00").data⟩

/-- An amount (9.00) in the balance x-range. -/
def wNine : Word := ⟨520, 24, 530, 34, ("9.00").data⟩

/-- A date row whose balance cell reads 0.00. -/
def cLineZero : Line := ⟨0, [wDate, wZero]⟩

/-- A continuation line carrying the amount 5.00 in the balance x-range. -/
def cLineFive : Line := ⟨12, [wFive]⟩

/-- The record parsed from `cLineZero` (balance slot holds 0.00). -/
def tZero : Txn := ⟨("01/01/2022").data, [], none, none, some 0, 0⟩

/-- An open record whose balance already holds the nonzero value 5.00. -/
def tBal : Txn := ⟨("01/01/2022").data, ("X").data, none, none, some 500, 1⟩

/-- Three words on y-coordinates 0, 2, 4: the middle one is near both
others, but the outer two are not near each other. -/
def gwA : Word := ⟨0, 0, 5, 8, ("a").data⟩

/-- Second clustering word (y0 = 2). -/
def gwB : Word := ⟨10, 2, 15, 10, ("b").data⟩

/-- Third clustering word (y0 = 4). -/
def gwC : Word := ⟨20, 4, 25, 12, ("c").data⟩

/-- A description token. -/
def wShop : Word := ⟨200, 0, 220, 10, ("SHOP").data⟩

/-- A balance-column amount token (20.00). -/
def wBal20 : Word := ⟨520, 0, 530, 10, ("20.00").data⟩

/-- A page holding one complete transaction row. -/
def pageTxn : Page := ⟨[wDate, wShop, wBal20], ("Transaction Details").data⟩

/-- The record extracted from `pageTxn`. -/
def tShop : Txn := ⟨("01/01/2022").data, ("SHOP").data, none, none, some 2000, 1⟩

/-- A line containing an end-of-table marker. -/
def mLine : Line := ⟨0, [⟨50, 0, 200, 10, ("Balance Carried Forward").data⟩]⟩

/-- A date line placed after the marker line. -/
def dLine : Line := ⟨12, [⟨50, 12, 60, 22, ("02/01/2022").data⟩]⟩

/-- An open record, to be closed unmodified by a marker line. -/
def tOpen : Txn := ⟨("02/01/2022").data, ("POS").data, some 100, none, none, 1⟩

/-- A page with no word tokens. -/
def pageEmpty : Page := ⟨[], ("x").data⟩

/-- A single `CURRENCY:` token. -/
def wCur : Word := ⟨50, 0, 110, 10, ("CURRENCY:").data⟩

/-- A page whose table-start marker is its only line and whose text triggers
both validator penalties. -/
def pageCur : Page := ⟨[wCur], ("short").data⟩

/-- Invariant of the clustering fold of `_group_words_into_lines` after
processing the prefix `proc`: every key is the y0 of a processed token, keys
are pairwise non-near, each group holds exactly the processed tokens near
its key (in processing order), and the groups jointly hold the processed
tokens. -/
structure GroupInv (proc : List Word) (acc : List (ℚ × List Word)) : Prop where
  keysFrom : ∀ p ∈ acc, ∃ u ∈ proc, p.1 = u.y0
  keysSep : List.Pairwise (fun a b => nearB a b = false) (acc.map Prod.fst)
  groupsEq : ∀ p ∈ acc, p.2 = proc.filter (fun t => nearB p.1 t.y0)
  flatPerm : ((acc.map Prod.snd).flatten).Perm proc

-- ------------------------------------------------------------------
-- Bridging lemmas: the executable comparisons agree with the rational order
-- ------------------------------------------------------------------

theorem subNum_eq (a b : ℚ) :
    a - b = ((subNum a b : ℤ) : ℚ) / (((a.den : ℤ) * (b.den : ℤ) : ℤ) : ℚ) := by
  rw [eq_div_iff (by positivity)]
  have h1 : (a.num : ℚ) = a * (a.den : ℚ) := (Rat.mul_den_eq_num a).symm
  have h2 : (b.num : ℚ) = b * (b.den : ℚ) := (Rat.mul_den_eq_num b).symm
  push_cast [subNum]
  rw [h1, h2]
  ring

theorem qltB_iff (a b : ℚ) : qltB a b = true ↔ a < b := by
  have hpos : (0:ℚ) < (((a.den : ℤ) * (b.den : ℤ) : ℤ) : ℚ) := by
    have ha : (0:ℤ) < (a.den : ℤ) := by exact_mod_cast a.pos
    have hb : (0:ℤ) < (b.den : ℤ) := by exact_mod_cast b.pos
    exact_mod_cast mul_pos ha hb
  constructor
  · intro hq
    simp only [qltB, decide_eq_true_eq] at hq
    have hlt : a - b < 0 := by
      rw [subNum_eq a b]
      apply div_neg_of_neg_of_pos _ hpos
      have : subNum a b < 0 := by simp only [subNum]; omega
      exact_mod_cast this
    linarith
  · intro hab
    simp only [qltB, decide_eq_true_eq]
    have h0 : a - b < 0 := by linarith
    rw [subNum_eq a b] at h0
    rcases div_neg_iff.1 h0 with ⟨_, hdn⟩ | ⟨hn, _⟩
    · exact absurd hpos (not_lt.2 (le_of_lt hdn))
    · have : subNum a b < 0 := by exact_mod_cast hn
      simp only [subNum] at this ⊢
      omega

theorem qltB_true {a b : ℚ} (h : a < b) : qltB a b = true := (qltB_iff a b).2 h

theorem qltB_false {a b : ℚ} (h : b ≤ a) : qltB a b = false := by
  cases hq : qltB a b
  · rfl
  · exact absurd ((qltB_iff a b).1 hq) (not_lt.2 h)

theorem qleB_iff (a b : ℚ) : qleB a b = true ↔ a ≤ b := by
  constructor
  · intro hq
    simp only [qleB, decide_eq_true_eq] at hq
    by_contra hab
    have hba : b < a := lt_of_not_le hab
    have := (qltB_iff b a).2 hba
    simp only [qltB, decide_eq_true_eq] at this
    omega
  · intro hab
    simp only [qleB, decide_eq_true_eq]
    by_contra hq
    have : qltB b a = true := by
      simp only [qltB, decide_eq_true_eq]
      omega
    exact absurd ((qltB_iff b a).1 this) (not_lt.2 hab)

theorem nearB_iff (a b : ℚ) : nearB a b = true ↔ |a - b| < 3 := by
  have key : ∀ x y : ℚ, (subNum x y < 3 * ((x.den : ℤ) * (y.den : ℤ))) ↔ x - y < 3 := by
    intro x y
    have hp : (0:ℚ) < (((x.den : ℤ) * (y.den : ℤ) : ℤ) : ℚ) := by
      have hx : (0:ℤ) < (x.den : ℤ) := by exact_mod_cast x.pos
      have hy : (0:ℤ) < (y.den : ℤ) := by exact_mod_cast y.pos
      exact_mod_cast mul_pos hx hy
    rw [subNum_eq x y, div_lt_iff₀ hp]
    constructor
    · intro h
      exact_mod_cast
        (by exact_mod_cast h :
          ((subNum x y : ℤ) : ℚ) < ((3 * ((x.den : ℤ) * (y.den : ℤ)) : ℤ) : ℚ))
    · intro h
      exact_mod_cast h
  rw [abs_sub_lt_iff]
  simp only [nearB, Bool.and_eq_true, decide_eq_true_eq]
  rw [key a b, key b a]

theorem nearB_symm (a b : ℚ) : nearB a b = nearB b a := by
  by_cases h : |a - b| < 3
  · rw [(nearB_iff a b).2 h, (nearB_iff b a).2 (by rwa [abs_sub_comm])]
  · have h1 : nearB a b ≠ true := fun hc => h ((nearB_iff a b).1 hc)
    have h2 : nearB b a ≠ true := fun hc => h (by rw [abs_sub_comm]; exact (nearB_iff b a).1 hc)
    simp only [Bool.not_eq_true] at h1 h2
    rw [h1, h2]

theorem nearB_self (a : ℚ) : nearB a a = true := (nearB_iff a a).2 (by simp)

-- ------------------------------------------------------------------
-- Stable insertion sort: permutation facts
-- ------------------------------------------------------------------

theorem insBy_perm (le : α → α → Bool) (a : α) (l : List α) :
    (insBy le a l).Perm (a :: l) := by
  induction l with
  | nil => simp [insBy]
  | cons b t ih =>
    simp only [insBy]
    split
    · exact (ih.cons b).trans (List.Perm.swap a b t)
    · exact List.Perm.refl _

theorem sortBy_go_perm (le : α → α → Bool) (l acc : List α) :
    (l.foldl (fun acc a => insBy le a acc) acc).Perm (acc ++ l) := by
  induction l generalizing acc with
  | nil => simp
  | cons x t ih =>
    simp only [List.foldl_cons]
    refine (ih (insBy le x acc)).trans ?_
    refine (((insBy_perm le x acc).append_right t).trans ?_)
    exact List.perm_middle.symm

theorem sortBy_perm (le : α → α → Bool) (l : List α) : (sortBy le l).Perm l := by
  simpa using sortBy_go_perm le l []

-- ------------------------------------------------------------------
-- First-match decomposition of a list
-- ------------------------------------------------------------------

theorem exists_first_split (p : α → Bool) (l : List α) (h : ∃ x ∈ l, p x = true) :
    ∃ l₁ x l₂, l = l₁ ++ x :: l₂ ∧ p x = true ∧ ∀ y ∈ l₁, p y = false := by
  induction l with
  | nil => simp at h
  | cons a t ih =>
    cases hpa : p a
    · have h' : ∃ x ∈ t, p x = true := by
        rcases h with ⟨x, hx, hpx⟩
        rcases List.mem_cons.1 hx with rfl | hxt
        · rw [hpa] at hpx; cases hpx
        · exact ⟨x, hxt, hpx⟩
      obtain ⟨l₁, x, l₂, heq, hpx, hl₁⟩ := ih h'
      refine ⟨a :: l₁, x, l₂, by rw [heq]; rfl, hpx, ?_⟩
      intro y hy
      rcases List.mem_cons.1 hy with rfl | hyl
      · exact hpa
      · exact hl₁ y hyl
    · exact ⟨[], a, t, rfl, hpa, by simp⟩

-- ------------------------------------------------------------------
-- Behaviour of the clustering step `addWord`
-- ------------------------------------------------------------------

theorem addWord_not_near (acc : List (ℚ × List Word)) (w : Word)
    (h : ∀ p ∈ acc, nearB p.1 w.y0 = false) :
    addWord acc w = acc ++ [(w.y0, [w])] := by
  induction acc with
  | nil => rfl
  | cons p rest ih =>
    obtain ⟨k, ws⟩ := p
    have hp : nearB k w.y0 = false := h (k, ws) (by simp)
    simp only [addWord, hp, Bool.false_eq_true, if_false]
    rw [ih (fun q hq => h q (by simp [hq]))]
    rfl

theorem addWord_near_first (l₁ : List (ℚ × List Word)) (k : ℚ) (ws : List Word)
    (l₂ : List (ℚ × List Word)) (w : Word)
    (h₁ : ∀ p ∈ l₁, nearB p.1 w.y0 = false) (hk : nearB k w.y0 = true) :
    addWord (l₁ ++ (k, ws) :: l₂) w = l₁ ++ (k, ws ++ [w]) :: l₂ := by
  induction l₁ with
  | nil => simp [addWord, hk]
  | cons p rest ih =>
    obtain ⟨k', ws'⟩ := p
    have hp : nearB k' w.y0 = false := h₁ (k', ws') (by simp)
    simp only [List.cons_append, addWord, hp, Bool.false_eq_true, if_false]
    have hrec := ih (fun q hq => h₁ q (by simp [hq]))
    simp only [List.append_eq] at hrec ⊢
    rw [hrec]

theorem groupInv_nil : GroupInv [] [] := ⟨by simp, by simp, by simp, by simp⟩

theorem groupInv_step (L : List Word) (hT : NearTrans L) (proc : List Word)
    (hsub : ∀ x ∈ proc, x ∈ L) (w : Word) (hw : w ∈ L)
    (acc : List (ℚ × List Word)) (inv : GroupInv proc acc) :
    GroupInv (proc ++ [w]) (addWord acc w) := by
  by_cases hex : ∃ p ∈ acc, nearB p.1 w.y0 = true
  · -- some existing key is near: the first such key absorbs the word
    obtain ⟨l₁, x, l₂, heq, hpx, hl₁⟩ :=
      exists_first_split (fun q => nearB q.1 w.y0) acc hex
    obtain ⟨k, ws⟩ := x
    replace hpx : nearB k w.y0 = true := hpx
    subst heq
    rw [addWord_near_first l₁ k ws l₂ w hl₁ hpx]
    have hl₂ : ∀ q ∈ l₂, nearB q.1 w.y0 = false := by
      intro q hq
      cases hnq : nearB q.1 w.y0
      · rfl
      · exfalso
        obtain ⟨u, hu, hqu⟩ := inv.keysFrom q (by simp [hq])
        obtain ⟨v, hv, hkv⟩ := inv.keysFrom (k, ws) (by simp)
        replace hkv : k = v.y0 := hkv
        have h1 : nearB v.y0 w.y0 = true := by rw [← hkv]; exact hpx
        have h2 : nearB w.y0 u.y0 = true := by
          rw [nearB_symm, ← hqu]; exact hnq
        have h3 : nearB v.y0 u.y0 = true := hT v (hsub v hv) w hw u (hsub u hu) h1 h2
        have hsep := inv.keysSep
        rw [List.map_append, List.map_cons] at hsep
        rcases List.pairwise_append.1 hsep with ⟨_, hc, _⟩
        have hkq : nearB k q.1 = false :=
          (List.pairwise_cons.1 hc).1 q.1 (List.mem_map.2 ⟨q, hq, rfl⟩)
        rw [hkv, hqu, h3] at hkq
        cases hkq
    constructor
    · -- keysFrom
      intro p hp
      rcases List.mem_append.1 hp with hp1 | hp2
      · obtain ⟨u, hu, he⟩ := inv.keysFrom p (by simp [hp1])
        exact ⟨u, by simp [hu], he⟩
      · rcases List.mem_cons.1 hp2 with rfl | hp3
        · obtain ⟨u, hu, he⟩ := inv.keysFrom (k, ws) (by simp)
          exact ⟨u, by simp [hu], he⟩
        · obtain ⟨u, hu, he⟩ := inv.keysFrom p (by simp [hp3])
          exact ⟨u, by simp [hu], he⟩
    · -- keysSep: the key list is unchanged
      have hkeys : (l₁ ++ (k, ws ++ [w]) :: l₂).map Prod.fst
          = (l₁ ++ (k, ws) :: l₂).map Prod.fst := by simp
      rw [hkeys]
      exact inv.keysSep
    · -- groupsEq
      intro p hp
      rcases List.mem_append.1 hp with hp1 | hp2
      · have hold := inv.groupsEq p (by simp [hp1])
        rw [List.filter_append]
        have hw0 : List.filter (fun t => nearB p.1 t.y0) [w] = [] := by
          simp [hl₁ p hp1]
        rw [hw0, List.append_nil]
        exact hold
      · rcases List.mem_cons.1 hp2 with rfl | hp3
        · have hold := inv.groupsEq (k, ws) (by simp)
          show ws ++ [w] = (proc ++ [w]).filter (fun t => nearB k t.y0)
          rw [List.filter_append]
          have h1 : List.filter (fun t => nearB k t.y0) [w] = [w] := by simp [hpx]
          have hold' : ws = proc.filter (fun t => nearB k t.y0) := hold
          rw [h1, ← hold']
        · have hold := inv.groupsEq p (by simp [hp3])
          rw [List.filter_append]
          have hw0 : List.filter (fun t => nearB p.1 t.y0) [w] = [] := by
            simp [hl₂ p hp3]
          rw [hw0, List.append_nil]
          exact hold
    · -- flatPerm
      have hf := inv.flatPerm
      simp only [List.map_append, List.map_cons, List.flatten_append,
        List.flatten_cons] at hf ⊢
      have step1 : ((ws ++ [w]) ++ ((l₂.map Prod.snd).flatten)).Perm
          ((ws ++ (l₂.map Prod.snd).flatten) ++ [w]) := by
        rw [List.append_assoc, List.append_assoc]
        exact List.Perm.append_left ws List.perm_append_comm
      refine (List.Perm.append_left _ step1).trans ?_
      have hassoc : (l₁.map Prod.snd).flatten ++ ((ws ++ (l₂.map Prod.snd).flatten) ++ [w])
          = ((l₁.map Prod.snd).flatten ++ (ws ++ (l₂.map Prod.snd).flatten)) ++ [w] :=
        (List.append_assoc _ _ _).symm
      rw [hassoc]
      exact hf.append_right [w]
  · -- no existing key is near: a new key is appended
    have hall : ∀ p ∈ acc, nearB p.1 w.y0 = false := by
      intro p hp
      cases hq : nearB p.1 w.y0
      · rfl
      · exact absurd ⟨p, hp, hq⟩ hex
    rw [addWord_not_near acc w hall]
    constructor
    · intro p hp
      rcases List.mem_append.1 hp with hp1 | hp2
      · obtain ⟨u, hu, he⟩ := inv.keysFrom p hp1
        exact ⟨u, by simp [hu], he⟩
      · have hpe : p = (w.y0, [w]) := by simpa using hp2
        subst hpe
        exact ⟨w, by simp, rfl⟩
    · rw [List.map_append]
      refine List.pairwise_append.2 ⟨inv.keysSep, by simp, ?_⟩
      intro a ha b hb
      simp only [List.map_cons, List.map_nil, List.mem_singleton] at hb
      subst hb
      obtain ⟨q, hq, rfl⟩ := List.mem_map.1 ha
      exact hall q hq
    · intro p hp
      rcases List.mem_append.1 hp with hp1 | hp2
      · have hold := inv.groupsEq p hp1
        rw [List.filter_append]
        have hw0 : List.filter (fun t => nearB p.1 t.y0) [w] = [] := by
          simp [hall p hp1]
        rw [hw0, List.append_nil]
        exact hold
      · have hpe : p = (w.y0, [w]) := by simpa using hp2
        subst hpe
        show [w] = (proc ++ [w]).filter (fun t => nearB w.y0 t.y0)
        rw [List.filter_append]
        have h1 : List.filter (fun t => nearB w.y0 t.y0) [w] = [w] := by
          simp [nearB_self]
        have h2 : List.filter (fun t => nearB w.y0 t.y0) proc = [] := by
          rw [List.filter_eq_nil_iff]
          intro t ht htw
          have htf : t ∈ ((acc.map Prod.snd).flatten) := (inv.flatPerm.mem_iff).2 ht
          obtain ⟨g, hg, htg⟩ := List.mem_flatten.1 htf
          obtain ⟨q, hq, rfl⟩ := List.mem_map.1 hg
          rw [inv.groupsEq q hq] at htg
          have hqt : nearB q.1 t.y0 = true := (List.mem_filter.1 htg).2
          obtain ⟨u, hu, hqu⟩ := inv.keysFrom q hq
          have h1' : nearB u.y0 t.y0 = true := by rw [← hqu]; exact hqt
          have h2' : nearB t.y0 w.y0 = true := by
            rw [nearB_symm]; exact htw
          have h3' : nearB u.y0 w.y0 = true := hT u (hsub u hu) t (hsub t ht) w hw h1' h2'
          have hcontra : nearB q.1 w.y0 = true := by rw [hqu]; exact h3'
          rw [hall q hq] at hcontra
          cases hcontra
        rw [h1, h2]
        rfl
    · simp only [List.map_append, List.map_cons, List.map_nil, List.flatten_append,
        List.flatten_cons, List.flatten_nil, List.append_nil]
      exact inv.flatPerm.append_right [w]

theorem groupInv_main (L : List Word) (hT : NearTrans L) (proc : List Word)
    (hsub : ∀ x ∈ proc, x ∈ L) :
    GroupInv proc (proc.foldl addWord []) := by
  induction proc using List.reverseRecOn with
  | nil => exact groupInv_nil
  | append_singleton t w ih =>
    rw [List.foldl_append]
    simp only [List.foldl_cons, List.foldl_nil]
    exact groupInv_step L hT t (fun x hx => hsub x (by simp [hx])) w (hsub w (by simp)) _
      (ih (fun x hx => hsub x (by simp [hx])))

-- ------------------------------------------------------------------
-- The groups are exactly the proximity classes (under transitivity)
-- ------------------------------------------------------------------

theorem partsOf_props (l : List Word) (hT : NearTrans l) :
    ((partsOf l).flatten).Perm l ∧
    ∀ g ∈ partsOf l, g ≠ [] ∧
      ∀ u ∈ g, g.Perm (l.filter (fun t => nearB u.y0 t.y0)) := by
  have inv := groupInv_main l hT l (fun x hx => hx)
  constructor
  · simpa [partsOf] using inv.flatPerm
  · intro g hg
    simp only [partsOf] at hg
    obtain ⟨p, hp, rfl⟩ := List.mem_map.1 hg
    have hge := inv.groupsEq p hp
    obtain ⟨u0, hu0, hpu0⟩ := inv.keysFrom p hp
    constructor
    · rw [hge]
      intro hnil
      have hmem : u0 ∈ l.filter (fun t => nearB p.1 t.y0) := by
        rw [List.mem_filter]
        exact ⟨hu0, by rw [hpu0]; exact nearB_self u0.y0⟩
      rw [hnil] at hmem
      cases hmem
    · intro u hu
      rw [hge] at hu ⊢
      have humem := List.mem_filter.1 hu
      have hne : nearB p.1 u.y0 = true := humem.2
      have hequiv : ∀ t ∈ l, (nearB p.1 t.y0) = (nearB u.y0 t.y0) := by
        intro t ht
        cases h1 : nearB p.1 t.y0 <;> cases h2 : nearB u.y0 t.y0
        · rfl
        · exfalso
          have ha : nearB u0.y0 u.y0 = true := by rw [← hpu0]; exact hne
          have hb : nearB u0.y0 t.y0 = true := hT u0 hu0 u humem.1 t ht ha h2
          rw [← hpu0, h1] at hb
          cases hb
        · exfalso
          have ha : nearB u.y0 u0.y0 = true := by
            rw [nearB_symm, ← hpu0]; exact hne
          have hb : nearB u.y0 t.y0 = true :=
            hT u humem.1 u0 hu0 t ht ha (by rw [← hpu0]; exact h1)
          rw [h2] at hb
          cases hb
        · rfl
      rw [List.filter_congr hequiv]

/-- Two lists of groups covering the same tokens, each group being a
proximity class of each of its members (relative to a fixed token list
`S`), are equal as multisets of multisets. -/
theorem parts_unique (S : List Word) (P1 : List (List Word)) :
    ∀ P2 : List (List Word),
    P1.flatten.Perm P2.flatten →
    (∀ g ∈ P1, g ≠ [] ∧ ∀ u ∈ g, g.Perm (S.filter (fun t => nearB u.y0 t.y0))) →
    (∀ g ∈ P2, g ≠ [] ∧ ∀ u ∈ g, g.Perm (S.filter (fun t => nearB u.y0 t.y0))) →
    (P1.map msOf).Perm (P2.map msOf) := by
  induction P1 with
  | nil =>
    intro P2 hj _ h2
    have hflat : P2.flatten = [] := (List.Perm.eq_nil hj.symm)
    have hP2 : P2 = [] := by
      cases P2 with
      | nil => rfl
      | cons g t =>
        exfalso
        obtain ⟨x, hx⟩ := List.exists_mem_of_ne_nil g (h2 g (by simp)).1
        have hxf : x ∈ (g :: t).flatten := List.mem_flatten.2 ⟨g, by simp, hx⟩
        rw [hflat] at hxf
        cases hxf
    subst hP2
    simp
  | cons g P1' ih =>
    intro P2 hj h1 h2
    have hg := h1 g (by simp)
    obtain ⟨u, hu⟩ := List.exists_mem_of_ne_nil g hg.1
    have huf1 : u ∈ (g :: P1').flatten := List.mem_flatten.2 ⟨g, by simp, hu⟩
    have huf2 : u ∈ P2.flatten := hj.subset huf1
    obtain ⟨g2, hg2mem, hug2⟩ := List.mem_flatten.1 huf2
    obtain ⟨a, b, hP2eq⟩ := List.append_of_mem hg2mem
    have hgperm : g.Perm g2 :=
      (hg.2 u hu).trans ((h2 g2 hg2mem).2 u hug2).symm
    have hj' : P1'.flatten.Perm ((a ++ b).flatten) := by
      have hstep : P2.flatten.Perm (g2 ++ (a.flatten ++ b.flatten)) := by
        rw [hP2eq]
        simp only [List.flatten_append, List.flatten_cons]
        have s1 : a.flatten ++ (g2 ++ b.flatten) = (a.flatten ++ g2) ++ b.flatten :=
          (List.append_assoc _ _ _).symm
        rw [s1]
        have s2 : ((a.flatten ++ g2) ++ b.flatten).Perm ((g2 ++ a.flatten) ++ b.flatten) :=
          List.Perm.append_right _ List.perm_append_comm
        refine s2.trans ?_
        rw [List.append_assoc]
      have h3 : (g ++ P1'.flatten).Perm (g2 ++ (a.flatten ++ b.flatten)) := by
        have : (g :: P1').flatten = g ++ P1'.flatten := List.flatten_cons
        rw [← this]
        exact hj.trans hstep
      have h4 : (g2 ++ P1'.flatten).Perm (g2 ++ (a.flatten ++ b.flatten)) :=
        (hgperm.symm.append_right P1'.flatten).trans h3
      have h5 := (List.perm_append_left_iff g2).1 h4
      rw [List.flatten_append]
      exact h5
    have ihh := ih (a ++ b) hj'
      (fun q hq => h1 q (by simp [hq]))
      (fun q hq => h2 q (by
        rw [hP2eq]
        rcases List.mem_append.1 hq with hqa | hqb
        · exact List.mem_append.2 (Or.inl hqa)
        · exact List.mem_append.2 (Or.inr (List.mem_cons.2 (Or.inr hqb)))))
    have hcoe : msOf g = msOf g2 := Multiset.coe_eq_coe.2 hgperm
    have e1 : (g :: P1').map msOf = msOf g2 :: P1'.map msOf := by
      simp only [List.map_cons, hcoe]
    rw [e1, hP2eq, List.map_append, List.map_cons]
    refine List.Perm.trans ?_ List.perm_middle.symm
    have e2 : (a ++ b).map msOf = a.map msOf ++ b.map msOf := List.map_append _ _ _
    rw [e2] at ihh
    exact ihh.cons _

-- ------------------------------------------------------------------
-- LineGrouper output, reduced to line membership, equals the fold's groups
-- ------------------------------------------------------------------

theorem lineWordsMS_eq_parts (l : List Word) :
    lineWordsMS l = (((partsOf l).map msOf) : List (Multiset Word)) := by
  simp only [lineWordsMS, groupWordsIntoLines, partsOf]
  rw [List.map_map]
  have hcongr :
      (sortBy (fun a b => qleB a.1 b.1) (l.foldl addWord [])).map
          ((fun ln : Line => msOf ln.words) ∘
            (fun kv : ℚ × List Word => (⟨kv.1, sortBy (fun u v => qleB u.x0 v.x0) kv.2⟩ : Line)))
        = (sortBy (fun a b => qleB a.1 b.1) (l.foldl addWord [])).map
            (fun kv : ℚ × List Word => msOf kv.2) := by
    apply List.map_congr_left
    intro kv _
    exact Multiset.coe_eq_coe.2 (sortBy_perm _ kv.2)
  rw [hcongr]
  have hperm : ((sortBy (fun a b => qleB a.1 b.1) (l.foldl addWord [])).map
      (fun kv : ℚ × List Word => msOf kv.2)).Perm
      ((l.foldl addWord []).map (fun kv : ℚ × List Word => msOf kv.2)) :=
    (sortBy_perm _ _).map _
  rw [Multiset.coe_eq_coe.2 hperm, List.map_map]
  rfl

-- ------------------------------------------------------------------
-- Correction pass: firing and skipping conditions
-- ------------------------------------------------------------------

theorem corrW_fires (s : RowState) (c : Nat) (hw : s.withdrawal = some c)
    (hb : s.balance = none) (hc : 1000 * 100 < c) :
    corrW s = { s with balance := some c, withdrawal := none } := by
  unfold corrW
  rw [hw]
  have h0 : (c == 0) = false := by simp; omega
  have hb' : truthyC s.balance = false := by rw [hb]; rfl
  simp [h0, hb', hc]

theorem corrD_fires (s : RowState) (c : Nat) (hd : s.deposit = some c)
    (hb : s.balance = none) (hc : 1000 * 100 < c) :
    corrD s = { s with balance := some c, deposit := none } := by
  unfold corrD
  rw [hd]
  have h0 : (c == 0) = false := by simp; omega
  have hb' : truthyC s.balance = false := by rw [hb]; rfl
  simp [h0, hb', hc]

theorem corrD_skip_of_balance (s : RowState) (c : Nat) (hb : s.balance = some c)
    (hc : c ≠ 0) : corrD s = s := by
  unfold corrD
  rcases hd : s.deposit with _ | d
  · rfl
  · have ht : truthyC s.balance = true := by simp [truthyC, hb, hc]
    simp [ht]

theorem corrW_deposit_eq (s : RowState) : (corrW s).deposit = s.deposit := by
  unfold corrW
  rcases hw : s.withdrawal with _ | c <;> simp only [hw]
  · split <;> rfl

theorem corrW_balance_none (s : RowState) (h : (corrW s).balance = none) :
    corrW s = s ∧ s.balance = none := by
  unfold corrW at h ⊢
  rcases hw : s.withdrawal with _ | c <;> simp only [hw] at h ⊢
  · exact ⟨by simp, h⟩
  · split at h
    · simp at h
    · rename_i hcond
      rw [if_neg hcond]
      exact ⟨rfl, h⟩

-- ------------------------------------------------------------------
-- Continuation lines never change a truthy slot
-- ------------------------------------------------------------------

theorem contStep_pres (p : Txn × Bool) (w : Word) :
    (truthyC p.1.withdrawal = true → ((contStep p w).1).withdrawal = p.1.withdrawal) ∧
    (truthyC p.1.deposit = true → ((contStep p w).1).deposit = p.1.deposit) ∧
    (truthyC p.1.balance = true → ((contStep p w).1).balance = p.1.balance) := by
  unfold contStep contFill
  rcases tryParseAmount w.text with _ | a
  · exact ⟨fun _ => rfl, fun _ => rfl, fun _ => rfl⟩
  · refine ⟨?_, ?_, ?_⟩ <;> intro h <;> (dsimp only; split_ifs <;> simp_all)

theorem foldCont_pres (ws : List Word) :
    ∀ p : Txn × Bool,
    (truthyC p.1.withdrawal = true → ((ws.foldl contStep p).1).withdrawal = p.1.withdrawal) ∧
    (truthyC p.1.deposit = true → ((ws.foldl contStep p).1).deposit = p.1.deposit) ∧
    (truthyC p.1.balance = true → ((ws.foldl contStep p).1).balance = p.1.balance) := by
  induction ws with
  | nil => exact fun p => ⟨fun _ => rfl, fun _ => rfl, fun _ => rfl⟩
  | cons w t ih =>
    intro p
    refine ⟨?_, ?_, ?_⟩ <;> intro h <;> simp only [List.foldl_cons]
    · have hstep := (contStep_pres p w).1 h
      have htr : truthyC ((contStep p w).1).withdrawal = true := by rw [hstep]; exact h
      rw [(ih (contStep p w)).1 htr, hstep]
    · have hstep := (contStep_pres p w).2.1 h
      have htr : truthyC ((contStep p w).1).deposit = true := by rw [hstep]; exact h
      rw [(ih (contStep p w)).2.1 htr, hstep]
    · have hstep := (contStep_pres p w).2.2 h
      have htr : truthyC ((contStep p w).1).balance = true := by rw [hstep]; exact h
      rw [(ih (contStep p w)).2.2 htr, hstep]

theorem applyContinuation_pres (c : Txn) (ws : List Word) :
    (truthyC c.withdrawal = true → (applyContinuation c ws).withdrawal = c.withdrawal) ∧
    (truthyC c.deposit = true → (applyContinuation c ws).deposit = c.deposit) ∧
    (truthyC c.balance = true → (applyContinuation c ws).balance = c.balance) := by
  unfold applyContinuation
  have h := foldCont_pres ws (c, false)
  refine ⟨?_, ?_, ?_⟩ <;> intro ht <;> dsimp only <;> split
  · exact h.1 ht
  · exact h.1 ht
  · exact h.2.1 ht
  · exact h.2.1 ht
  · exact h.2.2 ht
  · exact h.2.2 ht

-- ------------------------------------------------------------------
-- Page extraction and the per-page loop
-- ------------------------------------------------------------------

theorem extractPage_conf (st : PState) (pn : Nat) (p : Page) :
    ((extractPage st pn p).2).confidence = st.confidence := by
  unfold extractPage
  split
  · rfl
  · rcases hf : findTableStart (groupWordsIntoLines p.words) with _ | idx <;> simp [hf]

theorem extractPage_warn (st : PState) (pn : Nat) (p : Page) :
    ∃ l, ((extractPage st pn p).2).warnings = st.warnings ++ l := by
  unfold extractPage
  split
  · exact ⟨[wNoText (pn + 1)], rfl⟩
  · rcases hf : findTableStart (groupWordsIntoLines p.words) with _ | idx <;> simp [hf]

theorem extractPage_isSome (st : PState) (pn : Nat) (p : Page) :
    ((extractPage st pn p).1).isSome = true := by
  unfold extractPage
  split
  · rfl
  · rcases hf : findTableStart (groupWordsIntoLines p.words) with _ | idx <;> simp [hf]

theorem processPages_ok (ps : List Page) :
    ∀ st pn, ∃ ts st', processPages st pn ps = (Except.ok ts, st') := by
  induction ps with
  | nil => exact fun st _ => ⟨[], st, rfl⟩
  | cons p rest ih =>
    intro st pn
    rcases hep : extractPage st pn p with ⟨o, st'⟩
    rcases o with _ | ts
    · have hs := extractPage_isSome st pn p
      rw [hep] at hs
      cases hs
    · obtain ⟨ts2, st'', hrec⟩ := ih st' (pn + 1)
      exact ⟨ts ++ ts2, st'', by simp only [processPages, hep, hrec]⟩

theorem processPages_conf (ps : List Page) :
    ∀ st pn, ((processPages st pn ps).2).confidence = st.confidence := by
  induction ps with
  | nil => intro st pn; rfl
  | cons p rest ih =>
    intro st pn
    rcases hep : extractPage st pn p with ⟨o, st'⟩
    have hc : st'.confidence = st.confidence := by
      have h := extractPage_conf st pn p
      rw [hep] at h
      exact h
    rcases o with _ | ts
    · simp only [processPages, hep]
      exact hc
    · rcases hrec : processPages st' (pn + 1) rest with ⟨r, st''⟩
      have hc2 : st''.confidence = st'.confidence := by
        have h := ih st' (pn + 1)
        rw [hrec] at h
        exact h
      rcases r with e | more <;> simp only [processPages, hep, hrec] <;> rw [hc2, hc]

theorem processPages_warn (ps : List Page) :
    ∀ st pn, ∃ l, ((processPages st pn ps).2).warnings = st.warnings ++ l := by
  induction ps with
  | nil => exact fun st _ => ⟨[], by simp [processPages]⟩
  | cons p rest ih =>
    intro st pn
    rcases hep : extractPage st pn p with ⟨o, st'⟩
    obtain ⟨l1, hl1⟩ := extractPage_warn st pn p
    rw [hep] at hl1
    rcases o with _ | ts
    · exact ⟨l1, by simp only [processPages, hep]; exact hl1⟩
    · rcases hrec : processPages st' (pn + 1) rest with ⟨r, st''⟩
      obtain ⟨l2, hl2⟩ := ih st' (pn + 1)
      rw [hrec] at hl2
      rcases r with e | more <;> simp only [processPages, hep, hrec] <;>
        exact ⟨l1 ++ l2, by rw [hl2, hl1, List.append_assoc]⟩

-- ------------------------------------------------------------------
-- Validator and whole-document parse
-- ------------------------------------------------------------------

theorem validate_cons_fst (st : PState) (p : Page) (rest : List Page) :
    (validateDocument st (p :: rest)).1 = true := rfl

theorem validate_cons_conf (st : PState) (p : Page) (rest : List Page) :
    ((validateDocument st (p :: rest)).2).confidence = st.confidence * penaltyOf p.text := by
  simp only [validateDocument, penaltyOf]
  by_cases h1 : thinText p.text = true <;> by_cases h2 : missingHeaders p.text = true <;>
    simp [h1, h2] <;> ring

theorem validate_cons_warn (st : PState) (p : Page) (rest : List Page) :
    ∃ l, ((validateDocument st (p :: rest)).2).warnings = st.warnings ++ l := by
  simp only [validateDocument]
  by_cases h1 : thinText p.text = true <;> by_cases h2 : missingHeaders p.text = true <;>
    simp [h1, h2]

theorem penaltyOf_nonneg (t : Str) : 0 ≤ penaltyOf t := by
  unfold penaltyOf
  split_ifs <;> norm_num

theorem penaltyOf_le_one (t : Str) : penaltyOf t ≤ 1 := by
  unfold penaltyOf
  split_ifs <;> norm_num

theorem penaltyOf_eq_one (t : Str) (h : penaltyOf t = 1) :
    thinText t = false ∧ missingHeaders t = false := by
  by_cases h1 : thinText t = true <;> by_cases h2 : missingHeaders t = true
  · exfalso; unfold penaltyOf at h; rw [if_pos h1, if_pos h2] at h; norm_num at h
  · exfalso; unfold penaltyOf at h; rw [if_pos h1, if_neg h2] at h; norm_num at h
  · exfalso; unfold penaltyOf at h; rw [if_neg h1, if_pos h2] at h; norm_num at h
  · simp only [Bool.not_eq_true] at h1 h2
    exact ⟨h1, h2⟩

theorem parseCore_success_parts (st : PState) (p : Page) (rest : List Page) :
    ((parseCore st (p :: rest)).1).success = true ∧
    ((parseCore st (p :: rest)).1).confidence = st.confidence * penaltyOf p.text ∧
    ((parseCore st (p :: rest)).2).confidence = st.confidence * penaltyOf p.text := by
  rcases hv : validateDocument st (p :: rest) with ⟨b, st'⟩
  have hb : b = true := by
    have h := validate_cons_fst st p rest
    rw [hv] at h
    exact h
  subst hb
  obtain ⟨ts, st'', hp⟩ := processPages_ok (p :: rest) st' 0
  have hconf1 : st'.confidence = st.confidence * penaltyOf p.text := by
    have h := validate_cons_conf st p rest
    rw [hv] at h
    exact h
  have hconf2 : st''.confidence = st'.confidence := by
    have h := processPages_conf (p :: rest) st' 0
    rw [hp] at h
    exact h
  refine ⟨?_, ?_, ?_⟩ <;> simp only [parseCore, hv, hp]
  · rw [hconf2, hconf1]
  · rw [hconf2, hconf1]

theorem parseCore_res_warnings (st : PState) (doc : List Page) :
    ((parseCore st doc).1).warnings = ((parseCore st doc).2).warnings := by
  rcases hv : validateDocument st doc with ⟨b, st'⟩
  cases b
  · simp [parseCore, hv]
  · rcases hp : processPages st' 0 doc with ⟨r, st''⟩
    cases r <;> simp [parseCore, hv, hp]

theorem parseCore_warn_mono (st : PState) (doc : List Page) :
    ∃ l, ((parseCore st doc).2).warnings = st.warnings ++ l := by
  cases doc with
  | nil => exact ⟨[wEmptyDoc], by simp [parseCore, validateDocument]⟩
  | cons p rest =>
    obtain ⟨l1, h1⟩ := validate_cons_warn st p rest
    rcases hv : validateDocument st (p :: rest) with ⟨b, st'⟩
    have hb : b = true := by
      have h := validate_cons_fst st p rest
      rw [hv] at h
      exact h
    subst hb
    rw [hv] at h1
    obtain ⟨l2, h2⟩ := processPages_warn (p :: rest) st' 0
    rcases hp : processPages st' 0 (p :: rest) with ⟨r, st''⟩
    rw [hp] at h2
    cases r <;> simp only [parseCore, hv, hp] <;>
      exact ⟨l1 ++ l2, by rw [h2, h1, List.append_assoc]⟩

-- ------------------------------------------------------------------
-- Claim theorems
-- ------------------------------------------------------------------

/-- C1: in a date-opening row, every amount-shaped token is assigned to a
column by strict lower-bound comparisons on its x0: x0 > 503 sets BALANCE,
440 < x0 ≤ 503 sets DEPOSIT, 364 < x0 ≤ 440 sets WITHDRAWAL, and a token
with x0 ≤ 364 is appended to the description text, never promoted to an
amount column; in particular a token with x0 exactly 503 lands in DEPOSIT,
not BALANCE. -/
theorem rowStep_threshold_assignment (s : RowState) (w : Word) (a : Nat)
    (h : tryParseAmount w.text = some a) :
    ((503:ℚ) < w.x0 → rowStep s w = { s with balance := some a }) ∧
    ((440:ℚ) < w.x0 → w.x0 ≤ 503 → rowStep s w = { s with deposit := some a }) ∧
    ((364:ℚ) < w.x0 → w.x0 ≤ 440 → rowStep s w = { s with withdrawal := some a }) ∧
    (w.x0 ≤ 364 → rowStep s w = { s with descParts := s.descParts ++ [w.text] }) ∧
    (w.x0 = 503 → rowStep s w = { s with deposit := some a }) := by
  refine ⟨?_, ?_, ?_, ?_, ?_⟩
  · intro h1
    simp [rowStep, h, qltB_true h1]
  · intro h1 h2
    simp [rowStep, h, qltB_false h2, qltB_true h1]
  · intro h1 h2
    have h503 : w.x0 ≤ 503 := h2.trans (by norm_num)
    simp [rowStep, h, qltB_false h503, qltB_false h2, qltB_true h1]
  · intro h1
    have h440 : w.x0 ≤ 440 := h1.trans (by norm_num)
    have h503 : w.x0 ≤ 503 := h1.trans (by norm_num)
    simp [rowStep, h, qltB_false h503, qltB_false h440, qltB_false h1]
  · intro h1
    have e1 : qltB 503 w.x0 = false := qltB_false (le_of_eq h1)
    have e2 : qltB 440 w.x0 = true := qltB_true (by rw [h1]; norm_num)
    simp [rowStep, h, e1, e2]

/-- C1 witness: concrete tokens at x0 = 520, 480, 400, 300 and 503
(amount 79.80). -/
theorem rowStep_threshold_assignment_witness :
    rowStep sRow wAmtB = { sRow with balance := some 7980 } ∧
    rowStep sRow wAmtD = { sRow with deposit := some 7980 } ∧
    rowStep sRow wAmtW = { sRow with withdrawal := some 7980 } ∧
    rowStep sRow wAmtDesc = { sRow with descParts := sRow.descParts ++ [wAmtDesc.text] } ∧
    rowStep sRow wAmt503 = { sRow with deposit := some 7980 } :=
  ⟨(rowStep_threshold_assignment sRow wAmtB 7980 (by decide)).1 (by norm_num [wAmtB]),
   (rowStep_threshold_assignment sRow wAmtD 7980 (by decide)).2.1
     (by norm_num [wAmtD]) (by norm_num [wAmtD]),
   (rowStep_threshold_assignment sRow wAmtW 7980 (by decide)).2.2.1
     (by norm_num [wAmtW]) (by norm_num [wAmtW]),
   (rowStep_threshold_assignment sRow wAmtDesc 7980 (by decide)).2.2.2.1
     (by norm_num [wAmtDesc]),
   (rowStep_threshold_assignment sRow wAmt503 7980 (by decide)).2.2.2.2 rfl⟩

/-- C2: the post-assignment correction pass of a date-opening row: if the
withdrawal slot holds more than 1000 (100000 cents) and the balance slot is
unset, the corrected state has that value as BALANCE and no WITHDRAWAL; if
the deposit slot holds more than 1000 and the balance slot is still unset
when the deposit rule is evaluated (after the withdrawal rule), BALANCE
receives the deposit value and DEPOSIT is unset; and the record returned
for the row carries exactly the corrected state's fields. -/
theorem correction_pass (w0 : Word) (ws : List Word) (hd : isFullDate w0.text = true) :
    (∀ c : Nat, (rowAmounts ws).withdrawal = some c → (rowAmounts ws).balance = none →
      1000 * 100 < c →
      (corrD (corrW (rowAmounts ws))).balance = some c ∧
      (corrD (corrW (rowAmounts ws))).withdrawal = none) ∧
    (∀ c : Nat, (rowAmounts ws).deposit = some c →
      (corrW (rowAmounts ws)).balance = none → 1000 * 100 < c →
      (corrD (corrW (rowAmounts ws))).balance = some c ∧
      (corrD (corrW (rowAmounts ws))).deposit = none) ∧
    parseTransactionFromWords (w0 :: ws) =
      some { date := w0.text,
             description := trimL (joinSpace (corrD (corrW (rowAmounts ws))).descParts),
             withdrawal := (corrD (corrW (rowAmounts ws))).withdrawal,
             deposit := (corrD (corrW (rowAmounts ws))).deposit,
             balance := (corrD (corrW (rowAmounts ws))).balance,
             page := 0 } := by
  refine ⟨?_, ?_, ?_⟩
  · intro c hw hb hc
    have h1 : corrW (rowAmounts ws)
        = { rowAmounts ws with balance := some c, withdrawal := none } :=
      corrW_fires (rowAmounts ws) c hw hb hc
    have h2 : corrD (corrW (rowAmounts ws)) = corrW (rowAmounts ws) := by
      refine corrD_skip_of_balance (corrW (rowAmounts ws)) c ?_ (by omega)
      rw [h1]
    rw [h2, h1]
    exact ⟨rfl, rfl⟩
  · intro c hdep hbw hc
    have hdep' : (corrW (rowAmounts ws)).deposit = some c := by
      rw [corrW_deposit_eq]; exact hdep
    have h1 : corrD (corrW (rowAmounts ws))
        = { corrW (rowAmounts ws) with balance := some c, deposit := none } :=
      corrD_fires (corrW (rowAmounts ws)) c hdep' hbw hc
    rw [h1]
    exact ⟨rfl, rfl⟩
  · simp [parseTransactionFromWords, hd]

/-- C2 witness: a row with only a withdrawal-column amount of 1,500.00 and
no balance ends with BALANCE = 1500.00 and WITHDRAWAL = None. -/
theorem correction_pass_witness :
    (corrD (corrW (rowAmounts [wAmt1500]))).balance = some 150000 ∧
    (corrD (corrW (rowAmounts [wAmt1500]))).withdrawal = none :=
  (correction_pass wDate [wAmt1500] (by decide)).1 150000 (by decide) (by decide) (by decide)

/-- C3 counterexample: a balance slot set to the value 0.00 by a date row is
overwritten by a later continuation line (the code tests Python falsiness,
not emptiness), so a filled slot is not preserved for every value it can
hold. -/
theorem continuation_overwrites_zero_slot :
    parseTransactionFromWords cLineZero.words = some tZero ∧
    tZero.balance = some 0 ∧
    parseTableRows 0 [] none [cLineZero, cLineFive]
      = [{ tZero with page := 1, balance := some 500 }] := by
  refine ⟨by decide, by decide, by decide⟩

/-- C3 amended: a withdrawal/deposit/balance slot holding a nonzero value on
the open record is never changed by a continuation line; a slot holding
0.00 counts as falsy and may be overwritten. -/
theorem continuation_preserves_nonzero_slots (c : Txn) (ws : List Word) (v : Nat)
    (hv : v ≠ 0) :
    (c.withdrawal = some v → (applyContinuation c ws).withdrawal = some v) ∧
    (c.deposit = some v → (applyContinuation c ws).deposit = some v) ∧
    (c.balance = some v → (applyContinuation c ws).balance = some v) := by
  have ht : ∀ o : Option Nat, o = some v → truthyC o = true := by
    intro o ho
    rw [ho]
    simp [truthyC, hv]
  refine ⟨fun h => ?_, fun h => ?_, fun h => ?_⟩
  · rw [(applyContinuation_pres c ws).1 (ht _ h), h]
  · rw [(applyContinuation_pres c ws).2.1 (ht _ h), h]
  · rw [(applyContinuation_pres c ws).2.2 (ht _ h), h]

/-- C3 amended witness: a balance of 5.00 survives a continuation line that
carries another balance-column amount. -/
theorem continuation_preserves_nonzero_slots_witness :
    (applyContinuation tBal [wNine]).balance = some 500 :=
  (continuation_preserves_nonzero_slots tBal [wNine] 500 (by decide)).2.2 rfl

/-- C4 counterexample: the same multiset of three tokens (y-coordinates 0,
2, 4) grouped in two different input orders yields different line sets: one
order gives two lines, the other a single line. -/
theorem lineGrouper_order_dependent :
    (([gwA, gwB, gwC] : List Word) : Multiset Word)
      = (([gwB, gwA, gwC] : List Word) : Multiset Word) ∧
    (groupWordsIntoLines [gwA, gwB, gwC]).length = 2 ∧
    (groupWordsIntoLines [gwB, gwA, gwC]).length = 1 ∧
    lineWordsMS [gwA, gwB, gwC] ≠ lineWordsMS [gwB, gwA, gwC] := by
  refine ⟨Multiset.coe_eq_coe.2 (List.Perm.swap gwB gwA [gwC]), by decide, by decide, ?_⟩
  intro h
  have hc := congrArg Multiset.card h
  simp only [lineWordsMS, Multiset.coe_card, List.length_map] at hc
  have e1 : (groupWordsIntoLines [gwA, gwB, gwC]).length = 2 := by decide
  have e2 : (groupWordsIntoLines [gwB, gwA, gwC]).length = 1 := by decide
  rw [e1, e2] at hc
  cases hc

/-- C4 amended: LineGrouper is permutation-invariant whenever y-proximity
(|Δy| < 3) is transitive on the input's tokens: any two input orders of the
same token multiset yield the same set of lines with the same token
membership per line; without that hypothesis, input order can change line
membership. -/
theorem lineGrouper_perm_invariant_of_transitive (l1 l2 : List Word)
    (hp : l1.Perm l2) (hT : NearTrans l1) :
    lineWordsMS l1 = lineWordsMS l2 := by
  have hT2 : NearTrans l2 := by
    intro a ha b hb c hc
    exact hT a (hp.symm.subset ha) b (hp.symm.subset hb) c (hp.symm.subset hc)
  obtain ⟨hflat1, hparts1⟩ := partsOf_props l1 hT
  obtain ⟨hflat2, hparts2⟩ := partsOf_props l2 hT2
  have hj : (partsOf l1).flatten.Perm ((partsOf l2).flatten) :=
    hflat1.trans (hp.trans hflat2.symm)
  have hmapped := parts_unique l1 (partsOf l1) (partsOf l2) hj hparts1
    (fun g hg => ⟨(hparts2 g hg).1,
      fun u hu => ((hparts2 g hg).2 u hu).trans (List.Perm.filter _ hp.symm)⟩)
  rw [lineWordsMS_eq_parts, lineWordsMS_eq_parts]
  exact Multiset.coe_eq_coe.2 hmapped

/-- C4 amended witness: two orders of a two-token multiset whose proximity
relation is transitive give the same lines. -/
theorem lineGrouper_perm_invariant_witness :
    lineWordsMS [gwA, gwB] = lineWordsMS [gwB, gwA] :=
  lineGrouper_perm_invariant_of_transitive [gwA, gwB] [gwB, gwA]
    (List.Perm.swap gwB gwA []) (by decide)

/-- C5: on every successful parse, no returned record's description contains
the substring "Balance Brought Forward" or "Balance Carried Forward" (the
final post-processing filter removes such records). -/
theorem no_balance_forward_in_result (st : PState) (exc : Option Str) (doc : List Page)
    (h : ((parseS st exc doc).1).success = true) :
    ∀ t ∈ ((parseS st exc doc).1).data,
      containsL t.description (("Balance Brought Forward").data) = false ∧
      containsL t.description (("Balance Carried Forward").data) = false := by
  cases exc with
  | some e => simp [parseS] at h
  | none =>
    simp only [parseS] at h ⊢
    rcases hv : validateDocument st doc with ⟨b, st'⟩
    cases b
    · exfalso
      simp [parseCore, hv] at h
    · rcases hp : processPages st' 0 doc with ⟨r, st''⟩
      cases r with
      | error e =>
        exfalso
        simp [parseCore, hv, hp] at h
      | ok ts =>
        simp only [parseCore, hv, hp]
        intro t ht
        simp only [removeBalanceForward, List.mem_filter, Bool.and_eq_true,
          Bool.not_eq_true'] at ht
        exact ht.2

/-- C5 witness: the record extracted from a one-row page contains neither
substring. -/
theorem no_balance_forward_witness :
    containsL tShop.description (("Balance Brought Forward").data) = false ∧
    containsL tShop.description (("Balance Carried Forward").data) = false :=
  no_balance_forward_in_result initState none [pageTxn] (by decide) tShop (by decide)

/-- C6: a line whose joined text contains an end-of-table marker is handled
before any parsing of that line: the open record, if any, is closed
unmodified into the output, the marker line's own content is discarded, and
the rest of the page's lines are ignored. -/
theorem end_marker_stops_row_loop (pn : Nat) (acc : List Txn) (cur : Option Txn)
    (l : Line) (rest : List Line) (h : isEndMarker (lineText l) = true) :
    parseTableRows pn acc cur (l :: rest) = acc ++ cur.toList := by
  simp [parseTableRows, h]

/-- C6 witness: a "Balance Carried Forward" line closes the open record
unmodified and a later date line is ignored. -/
theorem end_marker_stops_row_loop_witness :
    parseTableRows 0 [] (some tOpen) [mLine, dLine] = [tOpen] :=
  end_marker_stops_row_loop 0 [] (some tOpen) mLine [dLine] (by decide)

/-- C7: both abort conditions return success = false, confidence 0, an
empty data list and a populated abort reason: an exception caught by the
top-level handler yields "Unexpected error: ..." and the empty document
yields exactly "Document integrity check failed". -/
theorem abort_semantics (st : PState) (doc : List Page) (e : Str) :
    parseS st (some e) doc
      = (⟨false, [], 0, st.warnings ++ [e], some (rUnexpected e)⟩, st) ∧
    parseS st none []
      = (⟨false, [], 0, st.warnings ++ [wEmptyDoc], some rIntegrity⟩,
         ⟨st.warnings ++ [wEmptyDoc], st.confidence⟩) :=
  ⟨rfl, rfl⟩

/-- C8: a wordless page, and a page without a locatable table start, yield
an empty per-page transaction list plus the corresponding warning; page
extraction never takes the None (abort) path; and a whole-document parse of
any nonempty document succeeds rather than aborting. -/
theorem page_soft_failures (st : PState) (pn : Nat) (p : Page) (doc : List Page) :
    (p.words = [] → extractPage st pn p
      = (some [], ⟨st.warnings ++ [wNoText (pn + 1)], st.confidence⟩)) ∧
    (p.words ≠ [] → findTableStart (groupWordsIntoLines p.words) = none →
      extractPage st pn p
        = (some [], ⟨st.warnings ++ [wNoTable (pn + 1)], st.confidence⟩)) ∧
    ((extractPage st pn p).1).isSome = true ∧
    (doc ≠ [] → ((parseS st none doc).1).success = true) := by
  refine ⟨?_, ?_, extractPage_isSome st pn p, ?_⟩
  · intro h
    simp [extractPage, h]
  · intro h1 h2
    have he : p.words.isEmpty = false := by
      cases hw : p.words
      · exact absurd hw h1
      · rfl
    simp [extractPage, he, h2]
  · intro h
    cases doc with
    | nil => exact absurd rfl h
    | cons q rest =>
      show ((parseCore st (q :: rest)).1).success = true
      exact (parseCore_success_parts st q rest).1

/-- C8 witness: a page with no words yields the empty list plus a warning,
and the document parse still succeeds. -/
theorem page_soft_failures_witness :
    extractPage initState 0 pageEmpty
      = (some [], ⟨initState.warnings ++ [wNoText 1], initState.confidence⟩) ∧
    ((parseS initState none [pageEmpty]).1).success = true :=
  ⟨(page_soft_failures initState 0 pageEmpty [pageEmpty]).1 rfl,
   (page_soft_failures initState 0 pageEmpty [pageEmpty]).2.2.2 (by simp)⟩

/-- C9: from the 1.0 baseline of a fresh instance, the returned confidence
lies in [0,1]; on success it equals the product of the two independent
validator penalty factors (0.5 for a thin first-page text, 0.7 for missing
headers); on abort it is 0; and it equals 1 only when neither penalty
fired. -/
theorem confidence_product (st : PState) (exc : Option Str) (doc : List Page)
    (h : st.confidence = 1) :
    (0 ≤ ((parseS st exc doc).1).confidence ∧ ((parseS st exc doc).1).confidence ≤ 1) ∧
    (((parseS st exc doc).1).success = true →
      ((parseS st exc doc).1).confidence = penaltyOf (firstText doc)) ∧
    (((parseS st exc doc).1).success = false → ((parseS st exc doc).1).confidence = 0) ∧
    (((parseS st exc doc).1).confidence = 1 →
      thinText (firstText doc) = false ∧ missingHeaders (firstText doc) = false) := by
  cases exc with
  | some e =>
    have hr : (parseS st (some e) doc).1
        = ⟨false, [], 0, st.warnings ++ [e], some (rUnexpected e)⟩ := rfl
    rw [hr]
    exact ⟨⟨by norm_num, by norm_num⟩, fun hs => by simp at hs, fun _ => rfl,
      fun hc => by norm_num at hc⟩
  | none =>
    cases doc with
    | nil =>
      have hr : (parseS st none ([] : List Page)).1
          = ⟨false, [], 0, st.warnings ++ [wEmptyDoc], some rIntegrity⟩ := rfl
      rw [hr]
      exact ⟨⟨by norm_num, by norm_num⟩, fun hs => by simp at hs, fun _ => rfl,
        fun hc => by norm_num at hc⟩
    | cons p rest =>
      obtain ⟨hsucc, hconf, _⟩ := parseCore_success_parts st p rest
      have hps : (parseS st none (p :: rest)).1 = (parseCore st (p :: rest)).1 := rfl
      rw [hps]
      rw [h, one_mul] at hconf
      have hft : firstText (p :: rest) = p.text := rfl
      refine ⟨?_, ?_, ?_, ?_⟩
      · rw [hconf]
        exact ⟨penaltyOf_nonneg p.text, penaltyOf_le_one p.text⟩
      · intro _
        rw [hconf, hft]
      · intro hf
        rw [hsucc] at hf
        cases hf
      · intro hc
        rw [hconf] at hc
        rw [hft]
        exact penaltyOf_eq_one p.text hc

/-- C9 witness: the bounds at a concrete one-page document on a fresh
instance. -/
theorem confidence_product_witness :
    0 ≤ ((parseS initState none [pageCur]).1).confidence ∧
    ((parseS initState none [pageCur]).1).confidence ≤ 1 :=
  (confidence_product initState none [pageCur] rfl).1

/-- C10: warnings and confidence are instance state that `parse` never
resets: a second call on the same instance returns all warnings of the
first call (as a prefix) and multiplies the first call's confidence by the
second document's penalty factors; in particular two parses of the same
document on one instance can return different results. -/
theorem instance_state_persists (st : PState) (d1 d2 : List Page) :
    (∃ l, ((parseS (parseS st none d1).2 none d2).1).warnings
      = ((parseS st none d1).1).warnings ++ l) ∧
    (d1 ≠ [] → d2 ≠ [] →
      ((parseS st none d1).1).confidence = st.confidence * penaltyOf (firstText d1) ∧
      ((parseS (parseS st none d1).2 none d2).1).confidence
        = st.confidence * penaltyOf (firstText d1) * penaltyOf (firstText d2)) ∧
    ((parseS (parseS initState none [pageCur]).2 none [pageCur]).1).warnings
      ≠ ((parseS initState none [pageCur]).1).warnings := by
  refine ⟨?_, ?_, by decide⟩
  · have h1 : ((parseS st none d1).1).warnings = ((parseS st none d1).2).warnings :=
      parseCore_res_warnings st d1
    obtain ⟨l, hl⟩ := parseCore_warn_mono ((parseS st none d1).2) d2
    have h2 : ((parseS (parseS st none d1).2 none d2).1).warnings
        = ((parseS (parseS st none d1).2 none d2).2).warnings :=
      parseCore_res_warnings _ d2
    refine ⟨l, ?_⟩
    rw [h2]
    show ((parseCore (parseS st none d1).2 d2).2).warnings = _
    rw [hl, ← h1]
  · intro h1 h2
    cases d1 with
    | nil => exact absurd rfl h1
    | cons p rest =>
      cases d2 with
      | nil => exact absurd rfl h2
      | cons q rest2 =>
        obtain ⟨_, hc1, hcs1⟩ := parseCore_success_parts st p rest
        obtain ⟨_, hc2, _⟩ :=
          parseCore_success_parts ((parseCore st (p :: rest)).2) q rest2
        refine ⟨hc1, ?_⟩
        show ((parseCore (parseCore st (p :: rest)).2 (q :: rest2)).1).confidence = _
        rw [hc2, hcs1]
        rfl

/-- C10 witness: a second parse of the same one-page document on the same
instance multiplies in the penalty factors again. -/
theorem instance_state_persists_witness :
    ((parseS initState none [pageCur]).1).confidence
      = initState.confidence * penaltyOf (firstText [pageCur]) ∧
    ((parseS (parseS initState none [pageCur]).2 none [pageCur]).1).confidence
      = initState.confidence * penaltyOf (firstText [pageCur])
          * penaltyOf (firstText [pageCur]) :=
  (instance_state_persists initState [pageCur] [pageCur]).2.1 (by simp) (by simp)

end StatementParser
